import Mathlib

/-!
Verification of the OpinionScope repository (React/TypeScript frontend in
src/client, plus the opinion-analysis backend specified in spec.md).

Frontend definitions are shallow embeddings of the TypeScript in
src/client/src/App.tsx, src/client/src/components/WelcomeScreen.tsx and
src/client/src/components/ResultsDisplay.tsx.  JavaScript numbers are
modelled as rationals (ℚ) except where NaN/Infinity semantics matter
(marker sizes), where an explicit JSNum type over ℝ is used.  JavaScript
strings subject to `.trim()` are modelled as lists of characters.

The Python backend (collector, similarity grouper, stance positioner) is
not part of the delivered sources; every definition for it carries a doc
comment starting with `Modelled from the spec:` and follows spec.md.
-/

/- Batteries marks the rational field operations `@[irreducible]`, which
blocks `decide` on concrete rational computations; restore the default
reducibility for this development so concrete instances evaluate. -/
attribute [local semireducible] Rat.mul Rat.add Rat.sub Rat.inv

/-- JavaScript strings on which the frontend calls `.trim()`. -/
def JSString : Type := List Char

instance : DecidableEq JSString := by
  unfold JSString
  infer_instance

/-- `String.prototype.trim()`: strips leading and trailing whitespace. -/
def jsTrim (s : JSString) : JSString :=
  ((List.dropWhile Char.isWhitespace s).reverse.dropWhile Char.isWhitespace).reverse

/-- A scatter-plot point as exchanged between the frontend and the server
(the `Point` type of src/client/src/App.tsx lines 14-25).  `similarity_to_user`
is stored in the exact encoding `(d, q)` standing for the real number
d / √q (the cosine similarity transmitted as a float in the JSON). -/
structure Point where
  id : ℕ
  x : ℚ
  y : ℚ
  text : String
  cluster : Option ℕ
  score : ℚ
  subreddit : String
  embedding : List ℚ
  is_user_stance : Bool
  similarity_to_user : Option (ℚ × ℚ)
deriving DecidableEq, Repr

/-- The `reduction` field of the `/api/process` body (App.tsx line 37). -/
inductive Reduction where
  | pca | umap | tsne
deriving DecidableEq, Repr

/-- The `clustering_method` field of the `/api/process` body (App.tsx line 38). -/
inductive ClusterMethod where
  | kmeans | hdbscan
deriving DecidableEq, Repr

/-- The body of the `/api/process` request built by `handleProcess`
(App.tsx lines 72-78). -/
structure AnalysisRequest where
  topic : JSString
  reduction : Reduction
  clustering_method : ClusterMethod
  n_clusters : ℕ
  max_posts : ℚ
deriving DecidableEq

/-- `handleProcess` (App.tsx lines 54-99): guards on `!topic.trim()` and
otherwise POSTs to `/api/process` the trimmed topic and the current
settings.  Result is the request body sent, `none` when the guard rejects
the submission and no fetch is issued. -/
def handleProcessRequest (topic : JSString) (reduction : Reduction)
    (cm : ClusterMethod) (ncl : ℕ) (maxPosts : ℚ) : Option AnalysisRequest :=
  if jsTrim topic = [] then none
  else some ⟨jsTrim topic, reduction, cm, ncl, maxPosts⟩

/-- `handleSubmit` of WelcomeScreen.tsx lines 42-47: calls
`onAnalyze(topic.trim())` only when the trimmed topic is non-empty and no
load is in flight; result is the argument passed to `onAnalyze`, `none`
when nothing is submitted. -/
def welcomeSubmit (topic : JSString) (isLoading : Bool) : Option JSString :=
  if jsTrim topic ≠ [] ∧ isLoading = false then some (jsTrim topic) else none

/-- The sample-size state of App.tsx: `maxPosts` starts at 50
(`useState(50)`, line 40) and each edit of the number input replaces it by
`Number(e.target.value)` (line 323); no clamping is applied in code — the
`min={10} max={200}` attributes only affect the stepper UI.  Value of the
state after a sequence of entered values. -/
def maxPostsState (edits : List ℚ) : ℚ :=
  edits.foldl (fun _ v => v) 50

/-- `getSimilarityColor` (App.tsx lines 149-154, ResultsDisplay.tsx lines
61-66). -/
def getSimilarityColor (similarity : ℚ) : String :=
  if similarity ≥ 0.8 then "#22c55e"
  else if similarity ≥ 0.6 then "#eab308"
  else if similarity ≥ 0.4 then "#f97316"
  else "#ef4444"

/-- The band of a similarity color under the ordering
red < orange < yellow < green used by the similarity legend. -/
def colorBand (c : String) : ℕ :=
  if c = "#22c55e" then 3
  else if c = "#eab308" then 2
  else if c = "#f97316" then 1
  else 0

/-- `resetStance` (App.tsx lines 140-147): the retained point list is
`prev.filter(p => !p.is_user_stance)`. -/
def resetStancePoints (pts : List Point) : List Point :=
  pts.filter (fun p => !p.is_user_stance)

/-! ### Cosine similarity, in an exact square-root-free encoding

spec.md §4.4: cosine similarity of vectors `a, b` is
`dot(a,b) / (‖a‖·‖b‖)`.  Vectors are modelled as rational lists; the
comparison `cos(a,b) ≥ t` is encoded without square roots so that it is
decidable, and proved equivalent to the real-number inequality. -/

/-- Dot product of two embedding vectors. -/
def dotQ (a b : List ℚ) : ℚ := (List.zipWith (fun x y => x * y) a b).sum

/-- `sqrtLE d1 v d2 u` decides the real inequality `d1·√v ≤ d2·√u`
(for `0 < u`, `0 ≤ v`) using only rational arithmetic. -/
def sqrtLE (d1 v d2 u : ℚ) : Bool :=
  if 0 ≤ d1 then decide (0 ≤ d2) && decide (d1 ^ 2 * v ≤ d2 ^ 2 * u)
  else decide (0 ≤ d2) || decide (d2 ^ 2 * u ≤ d1 ^ 2 * v)

/-- Modelled from the spec: the Similarity Grouper's edge test of
spec.md §4.4 (two opinions are connected iff their cosine similarity is at
least the threshold); also the Stance Positioner's per-opinion threshold
test of spec.md §4.6.  `simGE a b t` decides
`cos(a,b)·‖a‖·‖b‖ = dot(a,b) ≥ t·‖a‖·‖b‖`, i.e. `cos(a,b) ≥ t` whenever
the vectors are nonzero. -/
def simGE (a b : List ℚ) (t : ℚ) : Bool :=
  sqrtLE t (dotQ a a * dotQ b b) (dotQ a b) 1

/-! ### Threshold-graph grouping (spec.md §4.4)

Modelled from the spec: the Similarity Grouper is not among the delivered
sources.  spec.md §4.4 prescribes: build an undirected graph where two
opinions are connected iff their cosine similarity is at least
`similarity_threshold`; groups are the connected components; component
labels are renumbered densely starting at 0 in order of first-discovered
member (the scan over opinions is in index order, so the first-discovered
member of a component is its least index).  Connectivity is computed as
the fixpoint of a neighbourhood-expansion step, reached after at most `n`
iterations. -/

section Grouping

variable {n : ℕ}

/-- One expansion step of component discovery: add every opinion adjacent
to the current set. -/
def nbhd (adj : Fin n → Fin n → Bool) (s : Finset (Fin n)) : Finset (Fin n) :=
  s ∪ Finset.univ.filter (fun j => ∃ i ∈ s, adj i j = true)

/-- All opinions in the same component as `i`: `n` expansion steps from
`{i}` reach the fixpoint. -/
def reachSet (adj : Fin n → Fin n → Bool) (i : Fin n) : Finset (Fin n) :=
  (nbhd adj)^[n] {i}

/-- The first-discovered member of `i`'s component: scanning opinions in
index order, the first one discovered in a component is its least index
(`reachSet adj i` always contains `i` itself). -/
def groupRep (adj : Fin n → Fin n → Bool) (i : Fin n) : Fin n :=
  (reachSet adj i).min' ⟨i, by
    unfold reachSet
    have key : ∀ (k : ℕ) (s : Finset (Fin n)), s ⊆ (nbhd adj)^[k] s := by
      intro k
      induction k with
      | zero => intro s; simp
      | succ k ih =>
        intro s
        rw [Function.iterate_succ_apply]
        refine Finset.Subset.trans ?_ (ih (nbhd adj s))
        unfold nbhd
        exact Finset.subset_union_left
    exact key n {i} (Finset.mem_singleton_self i)⟩

/-- The set of component representatives (first-discovered members). -/
def groupReps (adj : Fin n → Fin n → Bool) : Finset (Fin n) :=
  Finset.univ.filter (fun r => groupRep adj r = r)

/-- Total number of groups. -/
def numGroups (adj : Fin n → Fin n → Bool) : ℕ := (groupReps adj).card

/-- Dense group label of opinion `i`: the number of components whose
first-discovered member precedes the first-discovered member of `i`'s
component, so labels start at 0 and increase in order of first member. -/
def groupIdA (adj : Fin n → Fin n → Bool) (i : Fin n) : ℕ :=
  ((groupReps adj).filter (fun r => r < groupRep adj i)).card

/-- Same-group relation: `j` lies in `i`'s connected component. -/
def sameGroupA (adj : Fin n → Fin n → Bool) (i j : Fin n) : Prop :=
  j ∈ reachSet adj i

instance (adj : Fin n → Fin n → Bool) (i j : Fin n) :
    Decidable (sameGroupA adj i j) := by
  unfold sameGroupA
  infer_instance

/-- Presenting the opinions through a permutation `σ` permutes the
adjacency relation accordingly. -/
def permAdj (σ : Equiv.Perm (Fin n)) (adj : Fin n → Fin n → Bool) :
    Fin n → Fin n → Bool :=
  fun a b => adj (σ a) (σ b)

end Grouping

/-! ### The grouper over concrete opinion vectors -/

/-- Modelled from the spec: the adjacency relation of the threshold graph
over the opinion vectors — two opinions are connected iff their cosine
similarity is at least the threshold (spec.md §4.4). -/
def adjOf {n : ℕ} (vecs : Fin n → List ℚ) (t : ℚ) : Fin n → Fin n → Bool :=
  fun i j => simGE (vecs i) (vecs j) t

/-- Modelled from the spec: two opinions end up in the same group of the
threshold-graph grouping. -/
def sameGroupV {n : ℕ} (vecs : Fin n → List ℚ) (t : ℚ) (i j : Fin n) : Prop :=
  sameGroupA (adjOf vecs t) i j

instance {n : ℕ} (vecs : Fin n → List ℚ) (t : ℚ) (i j : Fin n) :
    Decidable (sameGroupV vecs t i j) := by
  unfold sameGroupV
  infer_instance

/-- Modelled from the spec: the dense group label (`group_id`) the
threshold-graph grouping assigns to opinion `i`. -/
def groupIdV {n : ℕ} (vecs : Fin n → List ℚ) (t : ℚ) (i : Fin n) : ℕ :=
  groupIdA (adjOf vecs t) i

/-- Modelled from the spec: the number of groups the threshold-graph
grouping produces. -/
def numGroupsV {n : ℕ} (vecs : Fin n → List ℚ) (t : ℚ) : ℕ :=
  numGroups (adjOf vecs t)

/-! ### Spec-modelled pipeline: analysis response and stance positioner -/

/-- Modelled from the spec: the Projector (spec.md §4.5) returns one 2D
coordinate per input vector, attached to points positionally ("output
ordering must exactly match input ordering so coordinates attach
unambiguously to the originating Opinion by index").  `setCoords` writes
the coordinates onto the points by position, leaving every other field
untouched. -/
def setCoords : List Point → List (ℚ × ℚ) → List Point
  | [], _ => []
  | o :: os, [] => o :: os
  | o :: os, c :: cs => { o with x := c.1, y := c.2 } :: setCoords os cs

/-- Modelled from the spec: one collected, cleaned and embedded opinion as
it enters the grouping stage (spec.md §3, §4.1-4.3). -/
structure RawOpinion where
  text : String
  score : ℚ
  subreddit : String
  vec : List ℚ

/-- Modelled from the spec: the `points` array of a plain analysis
response (spec.md §2 data flow and §6).  Every opinion receives its dense
`group_id` from the threshold grouping, coordinates from the projector,
and — since no stance was requested — `is_stance = false` (spec.md §3
invariants, §4.6: only the Stance Positioner creates a stance point). -/
def analyzePoints (t : ℚ) (proj : List (List ℚ) → List (ℚ × ℚ))
    (items : List RawOpinion) : List Point :=
  setCoords
    ((List.finRange items.length).map (fun i =>
      { id := i.1
        x := 0
        y := 0
        text := (items.get i).text
        cluster := some (groupIdV (fun j => (items.get j).vec) t i)
        score := (items.get i).score
        subreddit := (items.get i).subreddit
        embedding := (items.get i).vec
        is_user_stance := false
        similarity_to_user := none }))
    (proj (items.map (fun it => it.vec)))

/-- Similarity key of an opinion vector `v` against the stance vector `s`:
the pair `(d, q) = (dot s v, dot s s · dot v v)` representing the cosine
similarity `d / √q` exactly. -/
def simKey (s v : List ℚ) : ℚ × ℚ := (dotQ s v, dotQ s s * dotQ v v)

/-- `simLE x y` decides that the cosine similarity encoded by `x` is at
most the one encoded by `y`. -/
def simLE (x y : ℚ × ℚ) : Bool := sqrtLE x.1 y.2 y.1 x.2

/-- The real number denoted by a similarity encoding. -/
noncomputable def realSim (p : ℚ × ℚ) : ℝ :=
  ((p.1 : ℚ) : ℝ) / Real.sqrt ((p.2 : ℚ) : ℝ)

/-- Real cosine similarity of two vectors (spec.md §4.4:
`dot(a,b)/(‖a‖·‖b‖)`, with `‖a‖ = √(dot a a)`,
so `cos = dot(a,b)/√(dot a a · dot b b)`). -/
noncomputable def cosSim (a b : List ℚ) : ℝ := realSim (simKey a b)

/-- One comparison step of the scan for the most similar opinion: keep the
incumbent unless the challenger is strictly more similar to the stance. -/
def betterOf (s : List ℚ) (b o : Point) : Point :=
  if simLE (simKey s o.embedding) (simKey s b.embedding) then b else o

/-- Scan of all existing opinions for the one most similar to the stance
vector (first maximum wins). -/
def bestMatch (s : List ℚ) (b : Point) (l : List Point) : Point :=
  l.foldl (betterOf s) b

/-- The StanceResult shape of spec.md §3/§6: `user_stance_similarity` is
kept in the exact `(d, q)` encoding of the float `d / √q`. -/
structure StanceResultM where
  points : List Point
  user_stance_similarity : ℚ × ℚ
  most_similar_opinion : String
  similar_points_count : ℕ
  topic : JSString

/-- Modelled from the spec: the Stance Positioner (spec.md §4.6).  The new
statement's embedding `svec` is compared against every existing opinion;
`similarity_to_user` is populated on every existing opinion; the stance
point carries `is_stance = true` and `group_id = null`; coordinates are
re-computed by projecting the augmented vector set; the result records the
maximal similarity, the text achieving it, and the number of opinions at
or above the threshold `t` used in the original analysis (or the fixed
default when grouping was not threshold-based). -/
def addUserStance (t : ℚ) (proj : List (List ℚ) → List (ℚ × ℚ))
    (topic : JSString) (stanceText : String) (svec : List ℚ)
    (existing : List Point) : StanceResultM :=
  let annotated := existing.map
    (fun o => { o with similarity_to_user := some (simKey svec o.embedding) })
  let stancePt : Point :=
    { id := existing.length
      x := 0
      y := 0
      text := stanceText
      cluster := none
      score := 0
      subreddit := ""
      embedding := svec
      is_user_stance := true
      similarity_to_user := none }
  let best := match existing with
    | [] => stancePt
    | h :: rest => bestMatch svec h rest
  { points := setCoords (annotated ++ [stancePt])
      (proj (existing.map (fun o => o.embedding) ++ [svec]))
    user_stance_similarity := simKey svec best.embedding
    most_similar_opinion := best.text
    similar_points_count := existing.countP (fun o => simGE svec o.embedding t)
    topic := topic }

/-! ### JavaScript marker-size arithmetic (NaN/Infinity semantics) -/

/-- A JavaScript number as produced by the marker-size expression:
either NaN, an infinity, or a finite real. -/
inductive JSNum where
  | nan : JSNum
  | posinf : JSNum
  | neginf : JSNum
  | val : ℝ → JSNum

/-- JS `Math.log` on a finite argument: the natural logarithm for positive
arguments, `-Infinity` at `0`, `NaN` for negative arguments. -/
noncomputable def jsLog (x : ℝ) : JSNum :=
  if 0 < x then .val (Real.log x) else if x = 0 then .neginf else .nan

/-- Multiplication by the positive literal `4` (preserves NaN and the
infinities). -/
def jsMul4 : JSNum → JSNum
  | .nan => .nan
  | .posinf => .posinf
  | .neginf => .neginf
  | .val x => .val (x * 4)

/-- JS `Math.min(25, v)`: NaN-propagating minimum. -/
def jsMin25 : JSNum → JSNum
  | .nan => .nan
  | .posinf => .val 25
  | .neginf => .neginf
  | .val x => .val (min 25 x)

/-- JS `Math.max(8, v)`: NaN-propagating maximum. -/
def jsMax8 : JSNum → JSNum
  | .nan => .nan
  | .posinf => .posinf
  | .neginf => .val 8
  | .val x => .val (max 8 x)

/-- The marker-size expression
`Math.max(8, Math.min(25, Math.log((score || 0) + 10) * 4))` of
ResultsDisplay.tsx lines 86-88 and App.tsx lines 174-176, evaluated at a
numeric score `s` (for a numeric score, `s || 0` reads `s`, since the only
falsy finite number is `0` and `0 || 0` is `0`). -/
noncomputable def markerSize (score : ℝ) : JSNum :=
  jsMax8 (jsMin25 (jsMul4 (jsLog (score + 10))))

/-- A concrete non-stance point used to instantiate theorems. -/
def samplePoint : Point :=
  { id := 0
    x := 0
    y := 0
    text := "opinion"
    cluster := some 0
    score := 1
    subreddit := "news"
    embedding := [1]
    is_user_stance := false
    similarity_to_user := none }

/-! ### Theorems -/

theorem resetStance_no_stance (pts : List Point) :
    (resetStancePoints pts).countP (fun p => p.is_user_stance) = 0 := by
  simp only [resetStancePoints, List.countP_eq_zero]
  intro p hp
  have := List.of_mem_filter hp
  simpa using this

theorem dotQ_comm (a b : List ℚ) : dotQ a b = dotQ b a := by
  unfold dotQ
  congr 1
  induction a generalizing b with
  | nil => cases b <;> rfl
  | cons x xs ih =>
    cases b with
    | nil => rfl
    | cons y ys => simp [List.zipWith, mul_comm, ih]

theorem dotQ_self_nonneg (a : List ℚ) : 0 ≤ dotQ a a := by
  unfold dotQ
  induction a with
  | nil => simp
  | cons x xs ih =>
    simp only [List.zipWith, List.sum_cons]
    nlinarith [mul_self_nonneg x]

theorem sqrtLE_iff (d1 v d2 u : ℚ) (hu : 0 < u) (hv : 0 ≤ v) :
    sqrtLE d1 v d2 u = true ↔
      (d1 : ℝ) * Real.sqrt (v : ℝ) ≤ (d2 : ℝ) * Real.sqrt (u : ℝ) := by
  have hvR : (0:ℝ) ≤ (v : ℝ) := by exact_mod_cast hv
  have huR : (0:ℝ) ≤ (u : ℝ) := by exact_mod_cast hu.le
  have sv : (0:ℝ) ≤ Real.sqrt (v : ℝ) := Real.sqrt_nonneg _
  have su : (0:ℝ) ≤ Real.sqrt (u : ℝ) := Real.sqrt_nonneg _
  have supos : (0:ℝ) < Real.sqrt (u : ℝ) := Real.sqrt_pos.2 (by exact_mod_cast hu)
  have hsv : Real.sqrt (v : ℝ) ^ 2 = (v : ℝ) := Real.sq_sqrt hvR
  have hsu : Real.sqrt (u : ℝ) ^ 2 = (u : ℝ) := Real.sq_sqrt huR
  unfold sqrtLE
  by_cases h1 : 0 ≤ d1
  · have h1R : (0:ℝ) ≤ (d1 : ℝ) := by exact_mod_cast h1
    have ha : (0:ℝ) ≤ (d1 : ℝ) * Real.sqrt (v : ℝ) := mul_nonneg h1R sv
    simp only [if_pos h1, Bool.and_eq_true, decide_eq_true_eq]
    constructor
    · rintro ⟨h2, hsq⟩
      have h2R : (0:ℝ) ≤ (d2 : ℝ) := by exact_mod_cast h2
      have hb : (0:ℝ) ≤ (d2 : ℝ) * Real.sqrt (u : ℝ) := mul_nonneg h2R su
      have hsqR : ((d1 : ℝ)) ^ 2 * (v : ℝ) ≤ ((d2 : ℝ)) ^ 2 * (u : ℝ) := by
        exact_mod_cast hsq
      refine le_of_pow_le_pow_left₀ two_ne_zero hb ?_
      calc ((d1 : ℝ) * Real.sqrt (v : ℝ)) ^ 2
          = (d1 : ℝ) ^ 2 * Real.sqrt (v : ℝ) ^ 2 := by ring
        _ = (d1 : ℝ) ^ 2 * (v : ℝ) := by rw [hsv]
        _ ≤ (d2 : ℝ) ^ 2 * (u : ℝ) := hsqR
        _ = (d2 : ℝ) ^ 2 * Real.sqrt (u : ℝ) ^ 2 := by rw [hsu]
        _ = ((d2 : ℝ) * Real.sqrt (u : ℝ)) ^ 2 := by ring
    · intro hab
      have hb : (0:ℝ) ≤ (d2 : ℝ) * Real.sqrt (u : ℝ) := le_trans ha hab
      have h2 : 0 ≤ d2 := by
        by_contra hneg
        push_neg at hneg
        have : (d2 : ℝ) < 0 := by exact_mod_cast hneg
        nlinarith
      refine ⟨h2, ?_⟩
      have hsqR : ((d1 : ℝ) * Real.sqrt (v : ℝ)) ^ 2 ≤
          ((d2 : ℝ) * Real.sqrt (u : ℝ)) ^ 2 := pow_le_pow_left₀ ha hab 2
      have : ((d1 : ℝ)) ^ 2 * (v : ℝ) ≤ ((d2 : ℝ)) ^ 2 * (u : ℝ) := by
        calc ((d1 : ℝ)) ^ 2 * (v : ℝ)
            = ((d1 : ℝ) * Real.sqrt (v : ℝ)) ^ 2 := by rw [mul_pow, hsv]
          _ ≤ ((d2 : ℝ) * Real.sqrt (u : ℝ)) ^ 2 := hsqR
          _ = ((d2 : ℝ)) ^ 2 * (u : ℝ) := by rw [mul_pow, hsu]
      exact_mod_cast this
  · push_neg at h1
    have h1R : (d1 : ℝ) < 0 := by exact_mod_cast h1
    have ha : (d1 : ℝ) * Real.sqrt (v : ℝ) ≤ 0 := mul_nonpos_of_nonpos_of_nonneg h1R.le sv
    simp only [if_neg (not_le.2 h1), Bool.or_eq_true, decide_eq_true_eq]
    constructor
    · rintro (h2 | hsq)
      · have h2R : (0:ℝ) ≤ (d2 : ℝ) := by exact_mod_cast h2
        have hb : (0:ℝ) ≤ (d2 : ℝ) * Real.sqrt (u : ℝ) := mul_nonneg h2R su
        linarith
      · by_cases h2 : 0 ≤ d2
        · have h2R : (0:ℝ) ≤ (d2 : ℝ) := by exact_mod_cast h2
          have hb : (0:ℝ) ≤ (d2 : ℝ) * Real.sqrt (u : ℝ) := mul_nonneg h2R su
          linarith
        · push_neg at h2
          have h2R : (d2 : ℝ) < 0 := by exact_mod_cast h2
          have hsqR : ((d2 : ℝ)) ^ 2 * (u : ℝ) ≤ ((d1 : ℝ)) ^ 2 * (v : ℝ) := by
            exact_mod_cast hsq
          have hna : (0:ℝ) ≤ -((d1 : ℝ) * Real.sqrt (v : ℝ)) := by linarith
          have key : -((d2 : ℝ) * Real.sqrt (u : ℝ)) ≤ -((d1 : ℝ) * Real.sqrt (v : ℝ)) := by
            refine le_of_pow_le_pow_left₀ two_ne_zero hna ?_
            calc (-((d2 : ℝ) * Real.sqrt (u : ℝ))) ^ 2
                = (d2 : ℝ) ^ 2 * Real.sqrt (u : ℝ) ^ 2 := by ring
              _ = (d2 : ℝ) ^ 2 * (u : ℝ) := by rw [hsu]
              _ ≤ (d1 : ℝ) ^ 2 * (v : ℝ) := hsqR
              _ = (d1 : ℝ) ^ 2 * Real.sqrt (v : ℝ) ^ 2 := by rw [hsv]
              _ = (-((d1 : ℝ) * Real.sqrt (v : ℝ))) ^ 2 := by ring
          linarith
    · intro hab
      by_cases h2 : 0 ≤ d2
      · exact Or.inl h2
      · push_neg at h2
        refine Or.inr ?_
        have h2R : (d2 : ℝ) < 0 := by exact_mod_cast h2
        have hb : (d2 : ℝ) * Real.sqrt (u : ℝ) < 0 := mul_neg_of_neg_of_pos h2R supos
        have hnb : (0:ℝ) ≤ -((d2 : ℝ) * Real.sqrt (u : ℝ)) := by linarith
        have hsqR : (-((d2 : ℝ) * Real.sqrt (u : ℝ))) ^ 2 ≤
            (-((d1 : ℝ) * Real.sqrt (v : ℝ))) ^ 2 :=
          pow_le_pow_left₀ hnb (by linarith) 2
        have : ((d2 : ℝ)) ^ 2 * (u : ℝ) ≤ ((d1 : ℝ)) ^ 2 * (v : ℝ) := by
          calc ((d2 : ℝ)) ^ 2 * (u : ℝ)
              = (-((d2 : ℝ) * Real.sqrt (u : ℝ))) ^ 2 := by rw [neg_sq, mul_pow, hsu]
            _ ≤ (-((d1 : ℝ) * Real.sqrt (v : ℝ))) ^ 2 := hsqR
            _ = ((d1 : ℝ)) ^ 2 * (v : ℝ) := by rw [neg_sq, mul_pow, hsv]
        exact_mod_cast this

/-- The encoding is faithful: `simGE a b t` holds exactly when
`dot(a,b) ≥ t·√(dot(a,a)·dot(b,b)) = t·‖a‖·‖b‖` over the reals. -/
theorem simGE_iff (a b : List ℚ) (t : ℚ) :
    simGE a b t = true ↔
      (t : ℝ) * Real.sqrt ((dotQ a a * dotQ b b : ℚ) : ℝ) ≤ ((dotQ a b : ℚ) : ℝ) := by
  have hq : 0 ≤ dotQ a a * dotQ b b := mul_nonneg (dotQ_self_nonneg a) (dotQ_self_nonneg b)
  have := sqrtLE_iff t (dotQ a a * dotQ b b) (dotQ a b) 1 one_pos hq
  unfold simGE
  rw [this]
  have h1 : Real.sqrt ((1 : ℚ) : ℝ) = 1 := by
    rw [Rat.cast_one, Real.sqrt_one]
  rw [h1, mul_one]

section GroupingLemmas

variable {n : ℕ}

theorem subset_nbhd (adj : Fin n → Fin n → Bool) (s : Finset (Fin n)) :
    s ⊆ nbhd adj s :=
  Finset.subset_union_left

theorem nbhd_mono (adj : Fin n → Fin n → Bool) {s t : Finset (Fin n)}
    (h : s ⊆ t) : nbhd adj s ⊆ nbhd adj t := by
  intro x hx
  rcases Finset.mem_union.1 hx with hx | hx
  · exact Finset.mem_union_left _ (h hx)
  · refine Finset.mem_union_right _ ?_
    rw [Finset.mem_filter] at hx ⊢
    obtain ⟨hxu, i, hi, hadj⟩ := hx
    exact ⟨hxu, i, h hi, hadj⟩

theorem nbhd_mono_adj {adj adj' : Fin n → Fin n → Bool}
    (h : ∀ i j, adj i j = true → adj' i j = true) (s : Finset (Fin n)) :
    nbhd adj s ⊆ nbhd adj' s := by
  intro x hx
  rcases Finset.mem_union.1 hx with hx | hx
  · exact Finset.mem_union_left _ hx
  · refine Finset.mem_union_right _ ?_
    rw [Finset.mem_filter] at hx ⊢
    obtain ⟨hxu, i, hi, hadj⟩ := hx
    exact ⟨hxu, i, hi, h _ _ hadj⟩

theorem iterate_nbhd_mono (adj : Fin n → Fin n → Bool) (k : ℕ) :
    ∀ {s t : Finset (Fin n)}, s ⊆ t →
      (nbhd adj)^[k] s ⊆ (nbhd adj)^[k] t := by
  induction k with
  | zero => intro s t h; simpa using h
  | succ k ih =>
    intro s t h
    rw [Function.iterate_succ_apply, Function.iterate_succ_apply]
    exact ih (nbhd_mono adj h)

theorem subset_iterate_nbhd (adj : Fin n → Fin n → Bool) (k : ℕ) :
    ∀ s : Finset (Fin n), s ⊆ (nbhd adj)^[k] s := by
  induction k with
  | zero => intro s; simp
  | succ k ih =>
    intro s
    rw [Function.iterate_succ_apply]
    exact (subset_nbhd adj s).trans (ih (nbhd adj s))

theorem iterate_nbhd_mono_adj {adj adj' : Fin n → Fin n → Bool}
    (h : ∀ i j, adj i j = true → adj' i j = true) (k : ℕ) :
    ∀ s : Finset (Fin n), (nbhd adj)^[k] s ⊆ (nbhd adj')^[k] s := by
  induction k with
  | zero => intro s; simp
  | succ k ih =>
    intro s
    rw [Function.iterate_succ_apply, Function.iterate_succ_apply]
    exact (ih (nbhd adj s)).trans
      (iterate_nbhd_mono adj' k (nbhd_mono_adj h s))

theorem mem_reachSet_self (adj : Fin n → Fin n → Bool) (i : Fin n) :
    i ∈ reachSet adj i :=
  subset_iterate_nbhd adj n {i} (Finset.mem_singleton_self i)

theorem reachSet_mono_adj {adj adj' : Fin n → Fin n → Bool}
    (h : ∀ i j, adj i j = true → adj' i j = true) (i : Fin n) :
    reachSet adj i ⊆ reachSet adj' i :=
  iterate_nbhd_mono_adj h n {i}

theorem iterate_nbhd_stab (adj : Fin n → Fin n → Bool) {s : Finset (Fin n)}
    (h : nbhd adj s = s) : ∀ m : ℕ, (nbhd adj)^[m] s = s := by
  intro m
  induction m with
  | zero => rfl
  | succ m ih => rw [Function.iterate_succ_apply', ih, h]

theorem exists_nbhd_fix (adj : Fin n → Fin n → Bool) (i : Fin n) :
    ∃ k, k ≤ n ∧ nbhd adj ((nbhd adj)^[k] {i}) = (nbhd adj)^[k] {i} := by
  by_contra hcon
  push_neg at hcon
  have hstrict : ∀ k, k ≤ n →
      (nbhd adj)^[k] ({i} : Finset (Fin n)) ⊂ (nbhd adj)^[k + 1] {i} := by
    intro k hk
    refine ⟨by rw [Function.iterate_succ_apply']; exact subset_nbhd adj _, ?_⟩
    intro hsub
    have heq : nbhd adj ((nbhd adj)^[k] ({i} : Finset (Fin n))) =
        (nbhd adj)^[k] {i} := by
      apply Finset.Subset.antisymm
      · intro x hx
        apply hsub
        rw [Function.iterate_succ_apply']
        exact hx
      · exact subset_nbhd adj _
    exact hcon k hk heq
  have hcard : ∀ k, k ≤ n + 1 →
      k ≤ ((nbhd adj)^[k] ({i} : Finset (Fin n))).card := by
    intro k
    induction k with
    | zero => intro _; exact Nat.zero_le _
    | succ k ih =>
      intro hk
      have hklt : k ≤ n := by omega
      have h1 : k ≤ ((nbhd adj)^[k] ({i} : Finset (Fin n))).card :=
        ih (by omega)
      have h2 := Finset.card_lt_card (hstrict k hklt)
      omega
  have hbig := hcard (n + 1) le_rfl
  have hsmall : ((nbhd adj)^[n + 1] ({i} : Finset (Fin n))).card ≤ n := by
    have := Finset.card_le_univ ((nbhd adj)^[n + 1] ({i} : Finset (Fin n)))
    simpa using this
  omega

theorem nbhd_reachSet (adj : Fin n → Fin n → Bool) (i : Fin n) :
    nbhd adj (reachSet adj i) = reachSet adj i := by
  obtain ⟨k, hk, hfix⟩ := exists_nbhd_fix adj i
  have hstab := iterate_nbhd_stab adj hfix
  have hre : reachSet adj i = (nbhd adj)^[k] {i} := by
    unfold reachSet
    calc (nbhd adj)^[n] ({i} : Finset (Fin n))
        = (nbhd adj)^[n - k + k] {i} := by rw [Nat.sub_add_cancel hk]
      _ = (nbhd adj)^[n - k] ((nbhd adj)^[k] {i}) :=
          Function.iterate_add_apply _ _ _ _
      _ = (nbhd adj)^[k] {i} := hstab (n - k)
  rw [hre]
  exact hfix

theorem reachSet_subset_of_mem (adj : Fin n → Fin n → Bool) {i j : Fin n}
    (hj : j ∈ reachSet adj i) : reachSet adj j ⊆ reachSet adj i := by
  have key : ∀ k, (nbhd adj)^[k] ({j} : Finset (Fin n)) ⊆ reachSet adj i := by
    intro k
    induction k with
    | zero => simpa using hj
    | succ k ih =>
      rw [Function.iterate_succ_apply']
      calc nbhd adj ((nbhd adj)^[k] {j}) ⊆ nbhd adj (reachSet adj i) :=
            nbhd_mono adj ih
        _ = reachSet adj i := nbhd_reachSet adj i
  exact key n

theorem mem_reachSet_of_adj (adj : Fin n → Fin n → Bool) {a b : Fin n}
    (h : adj a b = true) : b ∈ reachSet adj a := by
  have h1 : b ∈ nbhd adj ({a} : Finset (Fin n)) := by
    refine Finset.mem_union_right _ ?_
    rw [Finset.mem_filter]
    exact ⟨Finset.mem_univ b, a, Finset.mem_singleton_self a, h⟩
  have hpos : 0 < n := a.pos
  have h2 : nbhd adj ({a} : Finset (Fin n)) ⊆ reachSet adj a := by
    unfold reachSet
    calc nbhd adj ({a} : Finset (Fin n))
        ⊆ (nbhd adj)^[n - 1] (nbhd adj {a}) :=
          subset_iterate_nbhd adj (n - 1) _
      _ = (nbhd adj)^[n - 1 + 1] {a} :=
          (Function.iterate_succ_apply _ _ _).symm
      _ = (nbhd adj)^[n] {a} := by
          have hc : n - 1 + 1 = n := by omega
          rw [hc]
  exact h2 h1

theorem mem_reachSet_symm {adj : Fin n → Fin n → Bool}
    (hsym : ∀ a b, adj a b = adj b a) {i j : Fin n}
    (hj : j ∈ reachSet adj i) : i ∈ reachSet adj j := by
  have key : ∀ k, ∀ x : Fin n, x ∈ (nbhd adj)^[k] ({i} : Finset (Fin n)) →
      i ∈ reachSet adj x := by
    intro k
    induction k with
    | zero =>
      intro x hx
      rw [Function.iterate_zero_apply, Finset.mem_singleton] at hx
      rw [hx]
      exact mem_reachSet_self adj i
    | succ k ih =>
      intro x hx
      rw [Function.iterate_succ_apply'] at hx
      rcases Finset.mem_union.1 hx with hx | hx
      · exact ih x hx
      · rw [Finset.mem_filter] at hx
        obtain ⟨-, m, hm, hadj⟩ := hx
        have him : i ∈ reachSet adj m := ih m hm
        have hmx : m ∈ reachSet adj x :=
          mem_reachSet_of_adj adj (by rw [hsym]; exact hadj)
        exact reachSet_subset_of_mem adj hmx him
  exact key n j hj

theorem reachSet_eq_of_mem {adj : Fin n → Fin n → Bool}
    (hsym : ∀ a b, adj a b = adj b a) {i j : Fin n}
    (hj : j ∈ reachSet adj i) : reachSet adj i = reachSet adj j :=
  Finset.Subset.antisymm
    (reachSet_subset_of_mem adj (mem_reachSet_symm hsym hj))
    (reachSet_subset_of_mem adj hj)

theorem min'_congr {s t : Finset (Fin n)} (h : s = t) (hs : s.Nonempty)
    (ht : t.Nonempty) : s.min' hs = t.min' ht := by
  subst h
  rfl

theorem groupRep_mem (adj : Fin n → Fin n → Bool) (i : Fin n) :
    groupRep adj i ∈ reachSet adj i :=
  Finset.min'_mem _ _

theorem groupRep_eq_of_mem {adj : Fin n → Fin n → Bool}
    (hsym : ∀ a b, adj a b = adj b a) {i j : Fin n}
    (hj : j ∈ reachSet adj i) : groupRep adj i = groupRep adj j :=
  min'_congr (reachSet_eq_of_mem hsym hj) _ _

theorem groupRep_idem {adj : Fin n → Fin n → Bool}
    (hsym : ∀ a b, adj a b = adj b a) (i : Fin n) :
    groupRep adj (groupRep adj i) = groupRep adj i :=
  (groupRep_eq_of_mem hsym (groupRep_mem adj i)).symm

theorem groupRep_eq_iff {adj : Fin n → Fin n → Bool}
    (hsym : ∀ a b, adj a b = adj b a) {i j : Fin n} :
    groupRep adj i = groupRep adj j ↔ j ∈ reachSet adj i := by
  constructor
  · intro h
    have h1 : reachSet adj j = reachSet adj (groupRep adj j) :=
      reachSet_eq_of_mem hsym (groupRep_mem adj j)
    have h2 : reachSet adj i = reachSet adj (groupRep adj i) :=
      reachSet_eq_of_mem hsym (groupRep_mem adj i)
    have : j ∈ reachSet adj j := mem_reachSet_self adj j
    rw [h1, ← h, ← h2] at this
    exact this
  · exact groupRep_eq_of_mem hsym

theorem groupRep_mem_reps {adj : Fin n → Fin n → Bool}
    (hsym : ∀ a b, adj a b = adj b a) (i : Fin n) :
    groupRep adj i ∈ groupReps adj := by
  rw [groupReps, Finset.mem_filter]
  exact ⟨Finset.mem_univ _, groupRep_idem hsym i⟩

theorem belowCount_lt (adj : Fin n → Fin n → Bool) {a b : Fin n}
    (ha : a ∈ groupReps adj) (hab : a < b) :
    ((groupReps adj).filter (fun r => r < a)).card <
      ((groupReps adj).filter (fun r => r < b)).card := by
  apply Finset.card_lt_card
  constructor
  · intro x hx
    rw [Finset.mem_filter] at hx ⊢
    exact ⟨hx.1, lt_trans hx.2 hab⟩
  · intro hsub
    have hmem : a ∈ (groupReps adj).filter (fun r => r < b) := by
      rw [Finset.mem_filter]
      exact ⟨ha, hab⟩
    have := hsub hmem
    rw [Finset.mem_filter] at this
    exact absurd this.2 (lt_irrefl a)

theorem groupIdA_eq_iff_rep {adj : Fin n → Fin n → Bool}
    (hsym : ∀ a b, adj a b = adj b a) (i j : Fin n) :
    groupIdA adj i = groupIdA adj j ↔ groupRep adj i = groupRep adj j := by
  constructor
  · intro h
    rcases lt_trichotomy (groupRep adj i) (groupRep adj j) with hlt | heq | hgt
    · exact absurd h
        (Nat.ne_of_lt (belowCount_lt adj (groupRep_mem_reps hsym i) hlt))
    · exact heq
    · exact absurd h.symm
        (Nat.ne_of_lt (belowCount_lt adj (groupRep_mem_reps hsym j) hgt))
  · intro h
    unfold groupIdA
    rw [h]

theorem groupIdA_eq_iff {adj : Fin n → Fin n → Bool}
    (hsym : ∀ a b, adj a b = adj b a) (i j : Fin n) :
    groupIdA adj i = groupIdA adj j ↔ sameGroupA adj i j := by
  rw [groupIdA_eq_iff_rep hsym, groupRep_eq_iff hsym]
  rfl

theorem groupIdA_lt_numGroups {adj : Fin n → Fin n → Bool}
    (hsym : ∀ a b, adj a b = adj b a) (i : Fin n) :
    groupIdA adj i < numGroups adj := by
  apply Finset.card_lt_card
  rw [Finset.ssubset_iff_of_subset (Finset.filter_subset _ _)]
  refine ⟨groupRep adj i, groupRep_mem_reps hsym i, ?_⟩
  rw [Finset.mem_filter]
  rintro ⟨-, hlt⟩
  exact lt_irrefl _ hlt

theorem groupIdA_surjective {adj : Fin n → Fin n → Bool}
    (g : ℕ) (hg : g < numGroups adj) :
    ∃ i : Fin n, groupIdA adj i = g := by
  set f : Fin n → ℕ := fun r => ((groupReps adj).filter (fun x => x < r)).card
  have hinj : Set.InjOn f (groupReps adj) := by
    intro a ha b hb hfab
    rcases lt_trichotomy a b with hlt | heq | hgt
    · exact absurd hfab (Nat.ne_of_lt (belowCount_lt adj ha hlt))
    · exact heq
    · exact absurd hfab.symm (Nat.ne_of_lt (belowCount_lt adj hb hgt))
  have hsub : (groupReps adj).image f ⊆ Finset.range (numGroups adj) := by
    intro x hx
    rw [Finset.mem_image] at hx
    obtain ⟨r, hr, hfr⟩ := hx
    rw [Finset.mem_range, ← hfr]
    apply Finset.card_lt_card
    rw [Finset.ssubset_iff_of_subset (Finset.filter_subset _ _)]
    refine ⟨r, hr, ?_⟩
    rw [Finset.mem_filter]
    rintro ⟨-, hlt⟩
    exact lt_irrefl _ hlt
  have hcardim : ((groupReps adj).image f).card = numGroups adj :=
    Finset.card_image_of_injOn hinj
  have heq : (groupReps adj).image f = Finset.range (numGroups adj) :=
    Finset.eq_of_subset_of_card_le hsub
      (by rw [hcardim, Finset.card_range])
  have hgmem : g ∈ (groupReps adj).image f := by
    rw [heq, Finset.mem_range]
    exact hg
  rw [Finset.mem_image] at hgmem
  obtain ⟨r, hr, hfr⟩ := hgmem
  refine ⟨r, ?_⟩
  have hrr : groupRep adj r = r := by
    rw [groupReps, Finset.mem_filter] at hr
    exact hr.2
  unfold groupIdA
  rw [hrr]
  exact hfr

theorem groupIdA_lt_iff {adj : Fin n → Fin n → Bool}
    (hsym : ∀ a b, adj a b = adj b a) (i j : Fin n) :
    groupIdA adj i < groupIdA adj j ↔ groupRep adj i < groupRep adj j := by
  constructor
  · intro h
    rcases lt_trichotomy (groupRep adj i) (groupRep adj j) with hlt | heq | hgt
    · exact hlt
    · exfalso
      have : groupIdA adj i = groupIdA adj j := by
        unfold groupIdA
        rw [heq]
      omega
    · exfalso
      have := belowCount_lt adj (groupRep_mem_reps hsym j) hgt
      unfold groupIdA at h
      omega
  · intro h
    exact belowCount_lt adj (groupRep_mem_reps hsym i) h

theorem nbhd_image_perm (σ : Equiv.Perm (Fin n))
    (adj : Fin n → Fin n → Bool) (s : Finset (Fin n)) :
    nbhd adj (s.image σ) = (nbhd (permAdj σ adj) s).image σ := by
  ext x
  simp only [nbhd, permAdj, Finset.mem_union, Finset.mem_filter,
    Finset.mem_image, Finset.mem_univ, true_and]
  constructor
  · rintro (⟨y, hy, hyx⟩ | ⟨i, ⟨y, hy, hyi⟩, hadj⟩)
    · exact ⟨y, Or.inl hy, hyx⟩
    · refine ⟨σ.symm x, Or.inr ⟨y, hy, ?_⟩, σ.apply_symm_apply x⟩
      rw [σ.apply_symm_apply, hyi]
      exact hadj
  · rintro ⟨y, hy | ⟨m, hm, hadj⟩, hyx⟩
    · exact Or.inl ⟨y, hy, hyx⟩
    · exact Or.inr ⟨σ m, ⟨m, hm, rfl⟩, by rw [hyx] at hadj; exact hadj⟩

theorem reachSet_perm (σ : Equiv.Perm (Fin n)) (adj : Fin n → Fin n → Bool)
    (i : Fin n) :
    reachSet adj (σ i) = (reachSet (permAdj σ adj) i).image σ := by
  have key : ∀ k, ∀ s : Finset (Fin n),
      (nbhd adj)^[k] (s.image σ) = ((nbhd (permAdj σ adj))^[k] s).image σ := by
    intro k
    induction k with
    | zero => intro s; simp
    | succ k ih =>
      intro s
      rw [Function.iterate_succ_apply, Function.iterate_succ_apply,
        nbhd_image_perm, ih]
  unfold reachSet
  rw [← key n {i}, Finset.image_singleton]

theorem sameGroupA_perm (σ : Equiv.Perm (Fin n))
    (adj : Fin n → Fin n → Bool) (i j : Fin n) :
    sameGroupA (permAdj σ adj) i j ↔ sameGroupA adj (σ i) (σ j) := by
  unfold sameGroupA
  rw [reachSet_perm σ adj i]
  constructor
  · intro h
    exact Finset.mem_image_of_mem σ h
  · intro h
    rw [Finset.mem_image] at h
    obtain ⟨y, hy, hyj⟩ := h
    have : y = j := σ.injective hyj
    rw [← this]
    exact hy

end GroupingLemmas

theorem adjOf_symm {n : ℕ} (vecs : Fin n → List ℚ) (t : ℚ) :
    ∀ i j, adjOf vecs t i j = adjOf vecs t j i := by
  intro i j
  unfold adjOf simGE
  rw [dotQ_comm (vecs i) (vecs j), mul_comm (dotQ (vecs i) (vecs i))]

/-- Lowering the threshold keeps every edge of the similarity graph. -/
theorem simGE_anti (a b : List ℚ) {t1 t2 : ℚ} (h : t1 ≤ t2)
    (h2 : simGE a b t2 = true) : simGE a b t1 = true := by
  have hq : 0 ≤ dotQ a a * dotQ b b :=
    mul_nonneg (dotQ_self_nonneg a) (dotQ_self_nonneg b)
  unfold simGE sqrtLE at h2 ⊢
  by_cases ht2 : 0 ≤ t2
  · rw [if_pos ht2] at h2
    rw [Bool.and_eq_true, decide_eq_true_eq, decide_eq_true_eq] at h2
    obtain ⟨hd, hsq⟩ := h2
    by_cases ht1 : 0 ≤ t1
    · rw [if_pos ht1, Bool.and_eq_true, decide_eq_true_eq, decide_eq_true_eq]
      refine ⟨hd, le_trans ?_ hsq⟩
      have h12 : t1 ^ 2 ≤ t2 ^ 2 := pow_le_pow_left₀ ht1 h 2
      nlinarith
    · rw [if_neg ht1, Bool.or_eq_true, decide_eq_true_eq]
      exact Or.inl hd
  · push_neg at ht2
    have ht1 : ¬ 0 ≤ t1 := by
      push_neg
      linarith
    rw [if_neg (not_le.2 ht2)] at h2
    rw [Bool.or_eq_true, decide_eq_true_eq, decide_eq_true_eq] at h2
    rw [if_neg ht1, Bool.or_eq_true, decide_eq_true_eq, decide_eq_true_eq]
    rcases h2 with hd | hsq
    · exact Or.inl hd
    · refine Or.inr (le_trans hsq ?_)
      have h12 : t2 ^ 2 ≤ t1 ^ 2 := by nlinarith
      nlinarith

theorem sameGroupV_anti {n : ℕ} (vecs : Fin n → List ℚ) {t1 t2 : ℚ}
    (h : t1 ≤ t2) {i j : Fin n} (hg : sameGroupV vecs t2 i j) :
    sameGroupV vecs t1 i j := by
  unfold sameGroupV sameGroupA at hg ⊢
  refine reachSet_mono_adj ?_ i hg
  intro a b hab
  exact simGE_anti (vecs a) (vecs b) h hab

theorem setCoords_map {α : Type} (f : Point → α)
    (hf : ∀ (o : Point) (a b : ℚ), f { o with x := a, y := b } = f o) :
    ∀ (pts : List Point) (cs : List (ℚ × ℚ)),
      (setCoords pts cs).map f = pts.map f := by
  intro pts
  induction pts with
  | nil => intro cs; cases cs <;> rfl
  | cons o os ih =>
    intro cs
    cases cs with
    | nil => rfl
    | cons c cs' =>
      simp only [setCoords, List.map_cons, ih cs', hf]

theorem simLE_iff (x y : ℚ × ℚ) (hx : 0 < x.2) (hy : 0 < y.2) :
    simLE x y = true ↔ realSim x ≤ realSim y := by
  unfold simLE realSim
  rw [div_le_div_iff₀ (Real.sqrt_pos.2 (by exact_mod_cast hx))
    (Real.sqrt_pos.2 (by exact_mod_cast hy))]
  exact sqrtLE_iff x.1 y.2 y.1 x.2 hx hy.le

/-! ### Correctness of the most-similar scan -/

theorem cosSim_eq (s v : List ℚ) : cosSim s v = realSim (simKey s v) := rfl

theorem simKey_snd_pos {s v : List ℚ} (hs : 0 < dotQ s s)
    (hv : 0 < dotQ v v) : 0 < (simKey s v).2 :=
  mul_pos hs hv

/-- `simGE` against a threshold decides the real inequality
`t ≤ cos(a,b)` whenever both vectors are nonzero. -/
theorem simGE_iff_cosSim (a b : List ℚ) (t : ℚ) (ha : 0 < dotQ a a)
    (hb : 0 < dotQ b b) :
    simGE a b t = true ↔ (t : ℝ) ≤ cosSim a b := by
  rw [simGE_iff, cosSim_eq]
  unfold realSim simKey
  rw [le_div_iff₀ (Real.sqrt_pos.2 (by exact_mod_cast mul_pos ha hb))]

theorem bestMatch_spec (s : List ℚ) (hs : 0 < dotQ s s) (l : List Point) :
    ∀ b : Point, 0 < dotQ b.embedding b.embedding →
      (∀ o ∈ l, 0 < dotQ o.embedding o.embedding) →
      (bestMatch s b l ∈ b :: l ∧
        ∀ o ∈ b :: l,
          cosSim s o.embedding ≤ cosSim s (bestMatch s b l).embedding) := by
  induction l with
  | nil =>
    intro b _ _
    refine ⟨by simp [bestMatch], ?_⟩
    intro o ho
    rw [List.mem_singleton] at ho
    subst ho
    simp [bestMatch]
  | cons hpt rest ih =>
    intro b hb hl
    have hhp : 0 < dotQ hpt.embedding hpt.embedding := hl hpt (by simp)
    have hrest : ∀ o ∈ rest, 0 < dotQ o.embedding o.embedding := by
      intro o ho
      exact hl o (by simp [ho])
    have hb' : 0 < dotQ (betterOf s b hpt).embedding (betterOf s b hpt).embedding := by
      unfold betterOf
      split
      · exact hb
      · exact hhp
    have hbm : bestMatch s b (hpt :: rest) = bestMatch s (betterOf s b hpt) rest := rfl
    obtain ⟨hmem, hbound⟩ := ih (betterOf s b hpt) hb' hrest
    have hkey : cosSim s b.embedding ≤ cosSim s (betterOf s b hpt).embedding ∧
        cosSim s hpt.embedding ≤ cosSim s (betterOf s b hpt).embedding := by
      have hiff := simLE_iff (simKey s hpt.embedding) (simKey s b.embedding)
        (simKey_snd_pos hs hhp) (simKey_snd_pos hs hb)
      unfold betterOf
      by_cases hc : simLE (simKey s hpt.embedding) (simKey s b.embedding) = true
      · rw [if_pos hc]
        exact ⟨le_refl _, by rw [cosSim_eq, cosSim_eq]; exact hiff.1 hc⟩
      · rw [if_neg hc]
        have hnot : ¬ realSim (simKey s hpt.embedding) ≤ realSim (simKey s b.embedding) :=
          fun hle => hc (hiff.2 hle)
        exact ⟨by rw [cosSim_eq, cosSim_eq]; exact le_of_not_le hnot, le_refl _⟩
    constructor
    · rw [hbm]
      rcases List.mem_cons.1 hmem with h1 | h2
      · rw [h1]
        unfold betterOf
        split
        · exact List.mem_cons_self b _
        · exact List.mem_cons_of_mem b (List.mem_cons_self hpt rest)
      · exact List.mem_cons_of_mem b (List.mem_cons_of_mem hpt h2)
    · intro o ho
      rw [hbm]
      have htop : cosSim s (betterOf s b hpt).embedding ≤
          cosSim s (bestMatch s (betterOf s b hpt) rest).embedding :=
        hbound (betterOf s b hpt) (List.mem_cons_self _ _)
      rcases List.mem_cons.1 ho with ho1 | ho2
      · rw [ho1]
        exact le_trans hkey.1 htop
      · rcases List.mem_cons.1 ho2 with ho2a | ho2b
        · rw [ho2a]
          exact le_trans hkey.2 htop
        · exact hbound o (List.mem_cons_of_mem _ ho2b)

/-! ### Shared facts about the stance result's point list -/

theorem addUserStance_map_flag (t : ℚ) (proj : List (List ℚ) → List (ℚ × ℚ))
    (topic : JSString) (stext : String) (svec : List ℚ)
    (existing : List Point) :
    (addUserStance t proj topic stext svec existing).points.map
        (fun p => p.is_user_stance)
      = existing.map (fun p => p.is_user_stance) ++ [true] := by
  show (setCoords _ _).map _ = _
  rw [setCoords_map (fun p => p.is_user_stance) (fun o a b => rfl)]
  rw [List.map_append, List.map_map]
  rfl

theorem addUserStance_map_cluster (t : ℚ) (proj : List (List ℚ) → List (ℚ × ℚ))
    (topic : JSString) (stext : String) (svec : List ℚ)
    (existing : List Point) :
    (addUserStance t proj topic stext svec existing).points.map
        (fun p => p.cluster)
      = existing.map (fun p => p.cluster) ++ [none] := by
  show (setCoords _ _).map _ = _
  rw [setCoords_map (fun p => p.cluster) (fun o a b => rfl)]
  rw [List.map_append, List.map_map]
  rfl

theorem analyzePoints_map_flag (t : ℚ) (proj : List (List ℚ) → List (ℚ × ℚ))
    (items : List RawOpinion) :
    (analyzePoints t proj items).map (fun p => p.is_user_stance)
      = (List.finRange items.length).map (fun _ => false) := by
  show (setCoords _ _).map _ = _
  rw [setCoords_map (fun p => p.is_user_stance) (fun o a b => rfl)]
  rw [List.map_map]
  rfl

theorem countP_flag_of_map {l : List Point} {bs : List Bool}
    (h : l.map (fun p => p.is_user_stance) = bs) :
    l.countP (fun p => p.is_user_stance) = bs.countP (fun b => b) := by
  rw [← h, List.countP_map]
  rfl

theorem maxPostsState_eq_getLast (edits : List ℚ) :
    maxPostsState edits = (edits.getLast?).getD 50 := by
  unfold maxPostsState
  have key : ∀ (l : List ℚ) (a : ℚ), l.foldl (fun _ v => v) a = (l.getLast?).getD a := by
    intro l
    induction l with
    | nil => intro a; rfl
    | cons x xs ih =>
      intro a
      cases xs with
      | nil => rfl
      | cons y ys =>
        rw [List.foldl_cons, ih x, List.getLast?_cons_cons]
        have hne : (y :: ys : List ℚ) ≠ [] := by simp
        rw [List.getLast?_eq_getLast _ hne]
        rfl
  exact key edits 50

/-! ### Claims -/

/-- C4 (confirmed): a submission whose topic trims to the empty string is
rejected before any request is issued — `handleProcess` returns without
fetching, and the welcome screen's submit handler never calls `onAnalyze`. -/
theorem c4_empty_topic_no_request (topic : JSString) (r : Reduction)
    (cm : ClusterMethod) (ncl : ℕ) (mp : ℚ) (loading : Bool)
    (h : jsTrim topic = []) :
    handleProcessRequest topic r cm ncl mp = none ∧
    welcomeSubmit topic loading = none := by
  constructor
  · unfold handleProcessRequest
    rw [if_pos h]
  · unfold welcomeSubmit
    rw [if_neg]
    rintro ⟨hne, -⟩
    exact hne h

theorem c4_witness :
    jsTrim [' ', ' '] = [] ∧
    (handleProcessRequest [' ', ' '] .umap .kmeans 5 50 = none ∧
      welcomeSubmit [' ', ' '] false = none) :=
  ⟨by decide, c4_empty_topic_no_request [' ', ' '] .umap .kmeans 5 50 false (by decide)⟩

/-- C9 (confirmed): `getSimilarityColor` always returns one of the four
colors, and the band of the returned color (red < orange < yellow < green,
cutoffs 0.4, 0.6, 0.8) is monotone in the similarity. -/
theorem c9_color_total_band_monotone (s1 s2 : ℚ) (h : s1 ≤ s2) :
    (getSimilarityColor s1 = "#22c55e" ∨ getSimilarityColor s1 = "#eab308" ∨
      getSimilarityColor s1 = "#f97316" ∨ getSimilarityColor s1 = "#ef4444") ∧
    colorBand (getSimilarityColor s1) ≤ colorBand (getSimilarityColor s2) := by
  constructor
  · unfold getSimilarityColor
    split_ifs <;> simp
  · unfold getSimilarityColor
    split_ifs <;> first
      | decide
      | linarith

theorem c9_witness :
    (mkRat 1 2 ≤ mkRat 9 10) ∧
    colorBand (getSimilarityColor (mkRat 1 2)) ≤
      colorBand (getSimilarityColor (mkRat 9 10)) :=
  ⟨by decide, (c9_color_total_band_monotone (mkRat 1 2) (mkRat 9 10) (by decide)).2⟩

/-- C3 counterexample: entering 500 in the sample-size input and
submitting a valid topic sends a request whose `max_posts` is 500, outside
10..200 — the input's min/max attributes do not clamp typed values. -/
theorem c3_counterexample :
    ∃ req : AnalysisRequest,
      handleProcessRequest ['g'] .umap .kmeans 5 (maxPostsState [500]) = some req ∧
      req.max_posts = 500 ∧ ¬ (10 ≤ req.max_posts ∧ req.max_posts ≤ 200) := by
  refine ⟨⟨['g'], .umap, .kmeans, 5, 500⟩, by decide, rfl, by decide⟩

/-- C3 (corrected): the request's `max_posts` equals the sample-size state
— 50 before any edit and thereafter exactly the last entered value,
unclamped.  It lies within 10..200 whenever every entered value does (in
particular for stepper-only interaction and for the default), but an
out-of-range typed value is transmitted as-is. -/
theorem c3_max_posts_range (edits : List ℚ) (topic : JSString) (r : Reduction)
    (cm : ClusterMethod) (ncl : ℕ) (req : AnalysisRequest)
    (hreq : handleProcessRequest topic r cm ncl (maxPostsState edits) = some req)
    (hedits : ∀ v ∈ edits, 10 ≤ v ∧ v ≤ 200) :
    req.max_posts = (edits.getLast?).getD 50 ∧
    10 ≤ req.max_posts ∧ req.max_posts ≤ 200 := by
  have hmp : req.max_posts = maxPostsState edits := by
    unfold handleProcessRequest at hreq
    split at hreq
    · exact absurd hreq (by simp)
    · cases hreq
      rfl
  have hbound : 10 ≤ maxPostsState edits ∧ maxPostsState edits ≤ 200 := by
    rw [maxPostsState_eq_getLast]
    cases hlast : edits.getLast? with
    | none => norm_num
    | some v =>
      have hv : v ∈ edits := by
        have hvo : v ∈ edits.getLast? := Option.mem_def.2 hlast
        obtain ⟨hne, hveq⟩ := List.mem_getLast?_eq_getLast hvo
        rw [hveq]
        exact List.getLast_mem hne
      simpa using hedits v hv
  rw [hmp, maxPostsState_eq_getLast] at *
  exact ⟨rfl, hbound⟩

theorem c3_witness :
    (handleProcessRequest ['g'] .umap .kmeans 5 (maxPostsState []) =
      some ⟨['g'], .umap, .kmeans, 5, 50⟩) ∧
    ((⟨['g'], .umap, .kmeans, 5, 50⟩ : AnalysisRequest).max_posts =
        (([] : List ℚ).getLast?).getD 50 ∧
      10 ≤ (⟨['g'], .umap, .kmeans, 5, 50⟩ : AnalysisRequest).max_posts ∧
      (⟨['g'], .umap, .kmeans, 5, 50⟩ : AnalysisRequest).max_posts ≤ 200) :=
  ⟨by decide,
    c3_max_posts_range [] ['g'] .umap .kmeans 5 _ (by decide) (by simp)⟩

/-- C10 counterexample: at score −11 the marker-size expression is NaN
(`Math.log(-1)` is NaN and JS `Math.min`/`Math.max` propagate it), so the
claim that it is always a real number in [8, 25] fails for scores below
−10. -/
theorem c10_counterexample : markerSize (-11) = JSNum.nan := by
  unfold markerSize jsLog
  rw [if_neg (by norm_num : ¬ (0:ℝ) < (-11) + 10),
    if_neg (by norm_num : ¬ ((-11:ℝ) + 10 = 0))]
  rfl

/-- C10 (corrected): for every score of at least −10 the marker-size
expression evaluates to a real number in [8, 25] (at −10 the logarithm is
−Infinity, clamped to 8); for scores below −10 it is NaN. -/
theorem c10_marker_size_bounds (s : ℝ) (h : -10 ≤ s) :
    ∃ r : ℝ, markerSize s = JSNum.val r ∧ 8 ≤ r ∧ r ≤ 25 := by
  rcases eq_or_lt_of_le h with heq | hlt
  · refine ⟨8, ?_, le_refl 8, by norm_num⟩
    have h0 : s + 10 = 0 := by rw [← heq]; ring
    unfold markerSize jsLog
    rw [if_neg (by rw [h0]; exact lt_irrefl 0), if_pos h0]
    rfl
  · have hpos : (0:ℝ) < s + 10 := by linarith
    refine ⟨max 8 (min 25 (Real.log (s + 10) * 4)), ?_, le_max_left _ _, ?_⟩
    · unfold markerSize jsLog
      rw [if_pos hpos]
      rfl
    · exact max_le (by norm_num) (min_le_left _ _)

theorem c10_witness :
    ((-10:ℝ) ≤ 0) ∧ ∃ r : ℝ, markerSize 0 = JSNum.val r ∧ 8 ≤ r ∧ r ≤ 25 :=
  ⟨by norm_num, c10_marker_size_bounds 0 (by norm_num)⟩

/-- C1 (confirmed): a plain analysis response contains zero stance points;
a stance-addition call over a base with zero stance points returns exactly
one point with the stance flag set; and after `resetStance` the retained
points contain no stance point, so the base list sent as `existing_points`
to a subsequent stance call has zero stance points. -/
theorem c1_stance_flag_counts (t : ℚ) (proj : List (List ℚ) → List (ℚ × ℚ))
    (items : List RawOpinion) (topic : JSString) (stext : String)
    (svec : List ℚ) (existing pts : List Point)
    (h : existing.countP (fun p => p.is_user_stance) = 0) :
    (analyzePoints t proj items).countP (fun p => p.is_user_stance) = 0 ∧
    (addUserStance t proj topic stext svec existing).points.countP
        (fun p => p.is_user_stance) = 1 ∧
    (resetStancePoints pts).countP (fun p => p.is_user_stance) = 0 := by
  refine ⟨?_, ?_, resetStance_no_stance pts⟩
  · rw [countP_flag_of_map (analyzePoints_map_flag t proj items),
      List.countP_map]
    simp [List.countP_eq_zero]
  · rw [countP_flag_of_map (addUserStance_map_flag t proj topic stext svec existing)]
    rw [List.countP_append, List.countP_map]
    have hz : existing.countP ((fun b => b) ∘ fun p => p.is_user_stance) = 0 := h
    rw [hz]
    rfl

theorem c1_witness :
    (([samplePoint] : List Point).countP (fun p => p.is_user_stance) = 0) ∧
    (addUserStance 1 (fun _ => []) [] "mine" [(1:ℚ)]
        [samplePoint]).points.countP (fun p => p.is_user_stance) = 1 :=
  ⟨by decide,
    (c1_stance_flag_counts 1 (fun _ => []) [] [] "mine" [(1:ℚ)]
      [samplePoint] [] (by decide)).2.1⟩

/-- C2 (confirmed): stance addition never changes the `group_id`
(`cluster`) of any original opinion — the returned points carry exactly
the input clusters followed by `null` for the stance point — and the
frontend's stance reset retains the non-stance points unchanged (a sublist
of the previous points containing every non-stance point). -/
theorem c2_group_id_frame (t : ℚ) (proj : List (List ℚ) → List (ℚ × ℚ))
    (topic : JSString) (stext : String) (svec : List ℚ)
    (existing pts : List Point) :
    ((addUserStance t proj topic stext svec existing).points.map
        (fun p => p.cluster) = existing.map (fun p => p.cluster) ++ [none]) ∧
    (resetStancePoints pts).Sublist pts ∧
    (∀ p ∈ pts, p.is_user_stance = false → p ∈ resetStancePoints pts) := by
  refine ⟨addUserStance_map_cluster t proj topic stext svec existing,
    List.filter_sublist pts, ?_⟩
  intro p hp hflag
  unfold resetStancePoints
  rw [List.mem_filter]
  exact ⟨hp, by rw [hflag]; rfl⟩

theorem c2_witness :
    samplePoint.is_user_stance = false ∧
    samplePoint ∈ resetStancePoints [samplePoint] :=
  ⟨rfl, (c2_group_id_frame 1 (fun _ => []) [] "mine" [(1:ℚ)] []
    [samplePoint]).2.2 samplePoint (by simp) rfl⟩

/-- C5 (confirmed): for a fixed set of opinion vectors and thresholds
t1 ≤ t2, the threshold-graph grouping at t2 refines the grouping at t1:
two opinions sharing a group at the higher threshold share one at the
lower threshold, so raising the threshold never merges groups. -/
theorem c5_threshold_refines {n : ℕ} (vecs : Fin n → List ℚ) (t1 t2 : ℚ)
    (h : t1 ≤ t2) (i j : Fin n)
    (hg : groupIdV vecs t2 i = groupIdV vecs t2 j) :
    groupIdV vecs t1 i = groupIdV vecs t1 j := by
  have hsame2 : sameGroupV vecs t2 i j :=
    (groupIdA_eq_iff (adjOf_symm vecs t2) i j).1 hg
  have hsame1 : sameGroupV vecs t1 i j := sameGroupV_anti vecs h hsame2
  exact (groupIdA_eq_iff (adjOf_symm vecs t1) i j).2 hsame1

theorem c5_witness :
    ((0:ℚ) ≤ mkRat 1 2 ∧
      groupIdV ![[(1:ℚ)], [(1:ℚ)]] (mkRat 1 2) 0 =
        groupIdV ![[(1:ℚ)], [(1:ℚ)]] (mkRat 1 2) 1) ∧
    groupIdV ![[(1:ℚ)], [(1:ℚ)]] 0 0 = groupIdV ![[(1:ℚ)], [(1:ℚ)]] 0 1 :=
  ⟨⟨by decide, by decide⟩,
    c5_threshold_refines ![[(1:ℚ)], [(1:ℚ)]] 0 (mkRat 1 2) (by decide) 0 1
      (by decide)⟩

/-- C6 counterexample: two orthogonal opinions presented in the opposite
order keep the same partition but not the same numbering — the opinion
with vector [0,1] is labelled 1 when presented second and 0 when presented
first, so the dense numbering depends on presentation order. -/
theorem c6_counterexample :
    ¬ (∀ i : Fin 2,
        groupIdV (![[(1:ℚ), 0], [0, (1:ℚ)]] ∘ (Equiv.swap 0 1)) (mkRat 1 2) i
          = groupIdV ![[(1:ℚ), 0], [0, (1:ℚ)]] (mkRat 1 2) ((Equiv.swap 0 1) i)) := by
  decide

/-- C6 (corrected): for fixed embeddings and threshold the grouping is a
pure function, and presenting the opinions through any permutation yields
the same partition (two permuted opinions share a group iff their images
do); within each run labels are dense — every label is below the group
count and every value below it is attained — and ordered by
first-discovered member; but the label assigned to a fixed opinion may
change when the presentation order changes, since first-discovered members
follow the presented order. -/
theorem c6_partition_invariant_dense {n : ℕ} (vecs : Fin n → List ℚ)
    (t : ℚ) (σ : Equiv.Perm (Fin n)) :
    (∀ i j, sameGroupV (vecs ∘ σ) t i j ↔ sameGroupV vecs t (σ i) (σ j)) ∧
    (∀ i, groupIdV vecs t i < numGroupsV vecs t) ∧
    (∀ g, g < numGroupsV vecs t → ∃ i, groupIdV vecs t i = g) ∧
    (∀ i j, groupIdV vecs t i < groupIdV vecs t j ↔
      groupRep (adjOf vecs t) i < groupRep (adjOf vecs t) j) := by
  have hsym := adjOf_symm vecs t
  refine ⟨?_, fun i => groupIdA_lt_numGroups hsym i,
    fun g hg => groupIdA_surjective g hg,
    fun i j => groupIdA_lt_iff hsym i j⟩
  intro i j
  exact sameGroupA_perm σ (adjOf vecs t) i j

theorem c6_witness :
    (0 < numGroupsV ![[(1:ℚ)]] 0) ∧ (∃ i, groupIdV ![[(1:ℚ)]] 0 i = 0) :=
  ⟨by decide,
    (c6_partition_invariant_dense ![[(1:ℚ)]] 0 1).2.2.1 0 (by decide)⟩

/-- C7 counterexample: at threshold 1.0 the opinions with vectors [1,0]
and [2,0] — distinct, not exact duplicates — have cosine similarity
exactly 1 and land in the same group, so not every non-duplicate opinion
is a singleton at threshold 1. -/
theorem c7_counterexample :
    (![[(1:ℚ), 0], [(2:ℚ), 0]] : Fin 2 → List ℚ) 0 ≠
      (![[(1:ℚ), 0], [(2:ℚ), 0]] : Fin 2 → List ℚ) 1 ∧
    sameGroupV ![[(1:ℚ), 0], [(2:ℚ), 0]] 1 0 1 := by
  constructor <;> decide

/-- C7 (corrected): the grouping is total at every threshold (0 and 1
included).  Whenever the threshold is at most every pairwise similarity —
every distinct pair passes the edge test — a single group contains all
opinions.  At threshold 1.0, every single opinion whose vector has cosine
similarity exactly 1 with no other opinion's forms its own singleton group
(no other opinion carries its group label), even when other opinions do
have similarity-1 partners; and exact duplicates always have similarity
exactly 1 (as do positive scalar multiples generally, which is why
"except exact vector duplicates" must be weakened to "except pairs at
cosine similarity exactly 1"). -/
theorem c7_boundary_thresholds {n : ℕ} (vecs : Fin n → List ℚ) :
    (∀ (t : ℚ) (i j : Fin n),
        (∀ a b : Fin n, a ≠ b → simGE (vecs a) (vecs b) t = true) →
        sameGroupV vecs t i j) ∧
    (∀ i : Fin n, (∀ b : Fin n, b ≠ i → simGE (vecs i) (vecs b) 1 = false) →
        ∀ j : Fin n, groupIdV vecs 1 j = groupIdV vecs 1 i → j = i) ∧
    (∀ a : List ℚ, simGE a a 1 = true) := by
  refine ⟨?_, ?_, ?_⟩
  · intro t i j hall
    by_cases hij : i = j
    · rw [hij]
      exact mem_reachSet_self _ j
    · exact mem_reachSet_of_adj (adjOf vecs t) (hall i j hij)
  · intro i hnone j hg
    have hsym := adjOf_symm vecs 1
    have hsame : sameGroupA (adjOf vecs 1) j i :=
      (groupIdA_eq_iff hsym j i).1 hg
    have hji : j ∈ reachSet (adjOf vecs 1) i := mem_reachSet_symm hsym hsame
    have key : ∀ (k : ℕ) (s : Finset (Fin n)), s ⊆ {i} →
        (nbhd (adjOf vecs 1))^[k] s ⊆ {i} := by
      intro k
      induction k with
      | zero => intro s hs; simpa using hs
      | succ k ih =>
        intro s hs
        rw [Function.iterate_succ_apply']
        intro x hx
        rcases Finset.mem_union.1 hx with hx | hx
        · exact ih s hs hx
        · rw [Finset.mem_filter] at hx
          obtain ⟨-, m, hm, hadj⟩ := hx
          have hmi : m = i := Finset.mem_singleton.1 (ih s hs hm)
          rw [Finset.mem_singleton]
          by_contra hxi
          have : adjOf vecs 1 m x = false := by
            rw [hmi]
            exact hnone x hxi
          rw [this] at hadj
          exact Bool.false_ne_true hadj
    exact Finset.mem_singleton.1 (key n {i} (Finset.Subset.refl _) hji)
  · intro a
    unfold simGE sqrtLE
    rw [if_pos (by norm_num : (0:ℚ) ≤ 1)]
    simp only [Bool.and_eq_true, decide_eq_true_eq]
    refine ⟨dotQ_self_nonneg a, ?_⟩
    have : (1:ℚ) ^ 2 * (dotQ a a * dotQ a a) = dotQ a a ^ 2 * 1 := by ring
    rw [this]

theorem c7_witness :
    (∀ b : Fin 3, b ≠ 2 →
      simGE ((![[(1:ℚ), 0], [(2:ℚ), 0], [0, (1:ℚ)]]) 2)
        ((![[(1:ℚ), 0], [(2:ℚ), 0], [0, (1:ℚ)]]) b) 1 = false) ∧
    (∀ j : Fin 3, groupIdV ![[(1:ℚ), 0], [(2:ℚ), 0], [0, (1:ℚ)]] 1 j =
        groupIdV ![[(1:ℚ), 0], [(2:ℚ), 0], [0, (1:ℚ)]] 1 2 → j = 2) :=
  ⟨by decide,
    (c7_boundary_thresholds ![[(1:ℚ), 0], [(2:ℚ), 0], [0, (1:ℚ)]]).2.1 2
      (by decide)⟩

/-- C8 (confirmed): over a non-empty base of nonzero-embedding opinions,
the stance result's `user_stance_similarity` denotes the maximum cosine
similarity between the stance embedding and the existing opinions,
`most_similar_opinion` is the text of an opinion attaining it, the edge
test against the analysis threshold decides the real inequality
`t ≤ cos`, and `similar_points_count` counts exactly the opinions whose
similarity is at or above that threshold. -/
theorem c8_stance_statistics (t : ℚ) (proj : List (List ℚ) → List (ℚ × ℚ))
    (topic : JSString) (stext : String) (svec : List ℚ)
    (existing : List Point) (hne : existing ≠ [])
    (hs : 0 < dotQ svec svec)
    (hv : ∀ o ∈ existing, 0 < dotQ o.embedding o.embedding) :
    (∀ o ∈ existing, cosSim svec o.embedding ≤
        realSim ((addUserStance t proj topic stext svec
          existing).user_stance_similarity)) ∧
    (∃ o ∈ existing,
        realSim ((addUserStance t proj topic stext svec
            existing).user_stance_similarity) = cosSim svec o.embedding ∧
        (addUserStance t proj topic stext svec
            existing).most_similar_opinion = o.text) ∧
    (∀ o ∈ existing,
        (simGE svec o.embedding t = true ↔ (t : ℝ) ≤ cosSim svec o.embedding)) ∧
    (addUserStance t proj topic stext svec existing).similar_points_count
      = (existing.filter (fun o => simGE svec o.embedding t)).length := by
  cases existing with
  | nil => exact absurd rfl hne
  | cons h0 rest =>
    have hspec := bestMatch_spec svec hs rest h0
      (hv h0 (List.mem_cons_self h0 rest))
      (fun o ho => hv o (List.mem_cons_of_mem h0 ho))
    refine ⟨?_, ?_, ?_, ?_⟩
    · intro o ho
      exact hspec.2 o ho
    · exact ⟨bestMatch svec h0 rest, hspec.1, rfl, rfl⟩
    · intro o ho
      exact simGE_iff_cosSim svec o.embedding t hs (hv o ho)
    · exact List.countP_eq_length_filter _ _

theorem c8_witness :
    (([samplePoint] : List Point) ≠ [] ∧ (0:ℚ) < dotQ [(1:ℚ)] [(1:ℚ)]) ∧
    (addUserStance 1 (fun _ => []) [] "mine" [(1:ℚ)]
        [samplePoint]).similar_points_count
      = (([samplePoint] : List Point).filter
          (fun o => simGE [(1:ℚ)] o.embedding 1)).length :=
  ⟨⟨by simp, by decide⟩,
    (c8_stance_statistics 1 (fun _ => []) [] "mine" [(1:ℚ)] [samplePoint]
      (by simp) (by decide)
      (by
        intro o ho
        rw [List.mem_singleton] at ho
        rw [ho]
        decide)).2.2.2⟩
